import Mathlib

/-!
Verification of `src/features/fitness_features/feature_repo/feature_definitions.py`
against its natural-language specification.

The Python module declaratively constructs two values using the Feast API:
an `Entity` named `record` and a `FileSource` named `fitness_source`; the two
intended `FeatureView`s exist only as TODO comment stubs. We embed the data
model and the module's top-level statements shallowly, and additionally model
(from the spec, since the repository contains no such code) the minimal
feature-registry system the spec describes: registration with atomic commit,
and a point-in-time join engine.
-/

set_option autoImplicit false

namespace FeatureRepo

/-- Embeds `feast.Entity` as used by the module: a name, an ordered list of
join-key field names, and a description. -/
structure Entity where
  name : String
  join_keys : List String
  description : String
deriving DecidableEq, Repr

/-- Embeds `feast.FileSource` as used by the module: a path, a timestamp
field name, and an optional created-timestamp column (unset in the module). -/
structure FileSource where
  path : String
  timestamp_field : String
  created_timestamp_column : Option String
deriving DecidableEq, Repr

/-- Semantic field types imported by the module (`feast.types`). -/
inductive FType where
  | float32
  | float64
  | int64
  | stringT
deriving DecidableEq, Repr

/-- Modelled from the spec: a FeatureView record — name, entity reference,
source reference, validity duration (ttl), ordered (field name, type) pairs,
online flag, tag mapping. The module constructs no value of this type. -/
structure FeatureViewDef where
  name : String
  entity : String
  source : String
  ttl : Int
  fields : List (String × FType)
  online : Bool
  tags : List (String × String)
deriving DecidableEq, Repr

/-- The module's `record = Entity(name="record", join_keys=["record_id"], description=...)`. -/
def record : Entity :=
  ⟨"record", ["record_id"],
   "Each row is one record, which is a related cluster of fitness device features"⟩

/-- The module's `fitness_source = FileSource(path=..., timestamp_field=...)`,
with the optional created-timestamp column left unset. -/
def fitness_source : FileSource :=
  ⟨"../../../data/full_data_cleaned.csv", "synthetic_event_timestamp", none⟩

/-- First-match lookup in an association list keyed by strings. -/
def lookupA {β : Type} (n : String) : List (String × β) → Option β
  | [] => none
  | (k, v) :: rest => if n = k then some v else lookupA n rest

/-- Modelled from the spec: the registry state a registration entrypoint
commits into — named entities, named source descriptors, named views. -/
structure Registry where
  entities : List (String × Entity)
  sources : List (String × FileSource)
  views : List (String × FeatureViewDef)
deriving DecidableEq, Repr

def emptyRegistry : Registry := ⟨[], [], []⟩

/-- Modelled from the spec: one item of a registration batch. Sources carry
their binding name explicitly since a `FileSource` itself is anonymous. -/
inductive RegItem where
  | entity (e : Entity)
  | source (n : String) (s : FileSource)
  | view (v : FeatureViewDef)
deriving DecidableEq, Repr

/-- Modelled from the spec: the registration error taxonomy (the subset the
claims exercise). -/
inductive RegError where
  | duplicateName (n : String)
  | unresolvedReference (n : String)
  | schemaError (viewName : String)
deriving DecidableEq, Repr

/-- Modelled from the spec: register one entity. Identical re-registration is
a no-op; a name collision with conflicting content fails. -/
def registerEntity (reg : Registry) (e : Entity) : Except RegError Registry :=
  match lookupA e.name reg.entities with
  | some old => if old = e then .ok reg else .error (.duplicateName e.name)
  | none => .ok { reg with entities := (e.name, e) :: reg.entities }

/-- Modelled from the spec: register one source descriptor under a name. -/
def registerSource (reg : Registry) (n : String) (s : FileSource) :
    Except RegError Registry :=
  match lookupA n reg.sources with
  | some old => if old = s then .ok reg else .error (.duplicateName n)
  | none => .ok { reg with sources := (n, s) :: reg.sources }

/-- Modelled from the spec: register one feature view. Validates that the
referenced entity and source exist (UnresolvedReferenceError otherwise) and
that field names are unique within the view (SchemaError otherwise). -/
def registerView (reg : Registry) (v : FeatureViewDef) : Except RegError Registry :=
  match lookupA v.name reg.views with
  | some old => if old = v then .ok reg else .error (.duplicateName v.name)
  | none =>
    if (lookupA v.entity reg.entities).isNone then
      .error (.unresolvedReference v.entity)
    else if (lookupA v.source reg.sources).isNone then
      .error (.unresolvedReference v.source)
    else if (v.fields.map Prod.fst).Nodup then
      .ok { reg with views := (v.name, v) :: reg.views }
    else
      .error (.schemaError v.name)

/-- Modelled from the spec: register a single batch item. -/
def registerItem (reg : Registry) : RegItem → Except RegError Registry
  | .entity e => registerEntity reg e
  | .source n s => registerSource reg n s
  | .view v => registerView reg v

/-- Modelled from the spec: validate a batch sequentially, stopping at the
first validation error. -/
def applyBatch (reg : Registry) : List RegItem → Except RegError Registry
  | [] => .ok reg
  | it :: rest =>
    match registerItem reg it with
    | .error e => .error e
    | .ok reg' => applyBatch reg' rest

/-- Modelled from the spec: the registration entrypoint's commit semantics —
on success the validated registry is committed, on failure the previous
registry state is kept unchanged and the first error is reported. -/
def applyAll (reg : Registry) (b : List RegItem) : Registry × Option RegError :=
  match applyBatch reg b with
  | .ok reg' => (reg', none)
  | .error e => (reg, some e)

/-- A batch item is present in the registry with exactly its content. -/
def itemRegistered (reg : Registry) : RegItem → Prop
  | .entity e => lookupA e.name reg.entities = some e
  | .source n s => lookupA n reg.sources = some s
  | .view v => lookupA v.name reg.views = some v

/-- A batch item's name collides with an existing entry of different content. -/
def itemConflicts (reg : Registry) : RegItem → Prop
  | .entity e => ∃ old, lookupA e.name reg.entities = some old ∧ old ≠ e
  | .source n s => ∃ old, lookupA n reg.sources = some old ∧ old ≠ s
  | .view v => ∃ old, lookupA v.name reg.views = some old ∧ old ≠ v

instance (reg : Registry) (it : RegItem) : Decidable (itemRegistered reg it) := by
  cases it <;> simp only [itemRegistered] <;> infer_instance

/-!
Module evaluation. The Python module is a sequence of top-level statements.
We embed each statement and an interpreter over an explicit execution state
(process-wide registry, module-level bindings, log of files read) and an
environment (environment variables, clock, file contents), so that purity and
frame properties of evaluating the module become provable statements.
-/

/-- The ambient environment visible to Python code at import time. -/
structure Env where
  envVars : String → Option String
  clock : Int
  fileContents : String → Option String

/-- A module-level value of the feature-store kinds the module can construct
(plus raw strings, which a file read would produce). -/
inductive PyValue where
  | entity (e : Entity)
  | source (s : FileSource)
  | featureView (v : FeatureViewDef)
  | str (s : String)
deriving DecidableEq, Repr

/-- State threaded through module evaluation: the process-wide registry, the
module-level bindings in order, and the log of file paths opened. -/
structure ExecState where
  registry : Registry
  bindings : List (String × PyValue)
  readsLog : List String
deriving Repr

/-- Top-level statements of the embedded module language: imports, the
constructor-call bindings the module uses, and the effectful statements
(registration call, file read) the module could have used but does not. -/
inductive Stmt where
  | importNames (moduleName : String) (names : List String)
  | bindEntity (lhs : String) (name : String) (joinKeys : List String) (descr : String)
  | bindSource (lhs : String) (path : String) (tsField : String) (createdCol : Option String)
  | bindFeatureView (lhs : String) (v : FeatureViewDef)
  | applyCall (items : List RegItem)
  | readFile (lhs : String) (path : String)
deriving Repr

/-- One step of module evaluation. Constructor calls only append a binding;
`applyCall` mutates the registry through the registration entrypoint;
`readFile` consults the environment and logs the path. -/
def execStmt (env : Env) (st : ExecState) : Stmt → ExecState
  | .importNames _ _ => st
  | .bindEntity lhs n ks d =>
    { st with bindings := st.bindings ++ [(lhs, .entity ⟨n, ks, d⟩)] }
  | .bindSource lhs p tf cc =>
    { st with bindings := st.bindings ++ [(lhs, .source ⟨p, tf, cc⟩)] }
  | .bindFeatureView lhs v =>
    { st with bindings := st.bindings ++ [(lhs, .featureView v)] }
  | .applyCall items =>
    { st with registry := (applyAll st.registry items).1 }
  | .readFile lhs p =>
    { st with
      bindings := st.bindings ++ [(lhs, .str ((env.fileContents p).getD ""))],
      readsLog := st.readsLog ++ [p] }

/-- Evaluate a statement list in order. -/
def execStmts (env : Env) (st : ExecState) (l : List Stmt) : ExecState :=
  l.foldl (execStmt env) st

/-- The statements of `feature_definitions.py`, in source order: the three
imports, the `record = Entity(...)` binding, and the
`fitness_source = FileSource(...)` binding. The two FeatureViews are TODO
comment stubs in the source and contribute no statement. -/
def moduleStmts : List Stmt :=
  [ .importNames "datetime" ["timedelta"],
    .importNames "feast" ["Entity", "FeatureView", "Field", "FileSource"],
    .importNames "feast.types" ["Float32", "Float64", "Int64"],
    .bindEntity "record" "record" ["record_id"]
      "Each row is one record, which is a related cluster of fitness device features",
    .bindSource "fitness_source" "../../../data/full_data_cleaned.csv"
      "synthetic_event_timestamp" none ]

/-- Evaluate the module in environment `env`, starting from registry `reg`
and no bindings. -/
def evalModuleFrom (env : Env) (reg : Registry) : ExecState :=
  execStmts env ⟨reg, [], []⟩ moduleStmts

/-- Look a name up among module bindings and yield it only if it is bound to
a FeatureView. -/
def lookupFV (n : String) : List (String × PyValue) → Option FeatureViewDef
  | [] => none
  | (k, v) :: rest =>
    if n = k then
      match v with
      | .featureView fv => some fv
      | _ => none
    else lookupFV n rest

/-- The entity-valued bindings of a module, in order. -/
def entitiesOf (binds : List (String × PyValue)) : List (String × Entity) :=
  binds.filterMap fun p =>
    match p.2 with
    | .entity e => some (p.1, e)
    | _ => none

/-- The source-valued bindings of a module, in order. -/
def sourcesOf (binds : List (String × PyValue)) : List (String × FileSource) :=
  binds.filterMap fun p =>
    match p.2 with
    | .source s => some (p.1, s)
    | _ => none

/-!
Point-in-time join engine, modelled from the spec (§4.3): the repository
contains no join code, only its description. Source rows carry an entity key,
a row timestamp, an optional created timestamp, and field values.
-/

/-- Modelled from the spec: one row of a tabular source. -/
structure SourceRow where
  entity_key : String
  row_ts : Int
  created_ts : Option Int
  values : List (String × Int)
deriving DecidableEq, Repr

/-- Modelled from the spec: query error taxonomy of the join engine. -/
inductive QueryError where
  | sourceUnavailable
  | schemaMismatch (field : String)
deriving DecidableEq, Repr

/-- Modelled from the spec: the rows of a source matching `key` whose
timestamp field is ≤ the event timestamp `T`, in source order. -/
def candidates (rows : List SourceRow) (key : String) (T : Int) : List SourceRow :=
  rows.filter fun r => r.entity_key == key && decide (r.row_ts ≤ T)

/-- Row `a` strictly beats row `b`: a later row timestamp, or an equal row
timestamp with a later created timestamp when both rows carry one. -/
def strictBeats (a b : SourceRow) : Bool :=
  decide (b.row_ts < a.row_ts) ||
  (a.row_ts == b.row_ts &&
    match a.created_ts, b.created_ts with
    | some ca, some cb => decide (cb < ca)
    | _, _ => false)

/-- During the scan, a newly seen row replaces the current best unless the
current best strictly beats it; on a tie the later row in source order wins. -/
def prefersNew (old new : SourceRow) : Bool :=
  !strictBeats old new

/-- Scan tail `l` starting from current best `a`, keeping the preferred row. -/
def selGo (a : SourceRow) : List SourceRow → SourceRow
  | [] => a
  | x :: xs => selGo (if prefersNew a x then x else a) xs

/-- Modelled from the spec: select the row the join uses — maximum timestamp,
tie-broken by later created timestamp when present, else by later source
order. -/
def selectRow : List SourceRow → Option SourceRow
  | [] => none
  | x :: xs => some (selGo x xs)

/-- Modelled from the spec: historical-feature retrieval for one requested
(entity key, event timestamp) pair against one view's source. `.error` if the
source is unavailable; `.ok none` when the view's fields are null (no row at
or before `T`, or the selected row is staler than `ttl`); `.ok (some vals)`
with the selected row's field values otherwise. -/
def getHistorical (src : Option (List SourceRow)) (ttl : Int) (key : String)
    (T : Int) : Except QueryError (Option (List (String × Int))) :=
  match src with
  | none => .error .sourceUnavailable
  | some rows =>
    match selectRow (candidates rows key T) with
    | none => .ok none
    | some r => if T - r.row_ts ≤ ttl then .ok (some r.values) else .ok none

/-- The created-timestamp field is uniformly present or uniformly absent
across a source's rows, as it stems from one optional column. -/
def uniformCreated (rows : List SourceRow) : Prop :=
  (∀ r ∈ rows, r.created_ts ≠ none) ∨ (∀ r ∈ rows, r.created_ts = none)

/-- Created-timestamp comparison used to state the tie-break: when both rows
carry a created timestamp, `a`'s is at most `b`'s; trivial otherwise. -/
def createdLe (a b : SourceRow) : Prop :=
  match a.created_ts, b.created_ts with
  | some ca, some cb => ca ≤ cb
  | _, _ => True

/-!
Theorems. First the module-level claims, then the join-engine and
registration claims.
-/

theorem evalModuleFrom_eq (env : Env) (reg : Registry) :
    evalModuleFrom env reg =
      ⟨reg,
       [("record", PyValue.entity record),
        ("fitness_source", PyValue.source fitness_source)],
       []⟩ := rfl

/-- C1: the module binds no FeatureView value — the two intended feature
groupings exist only as TODO comment stubs — so looking any name up as a
feature view among the module's top-level bindings yields nothing. -/
theorem module_defines_no_feature_view (env : Env) (reg : Registry) (n : String) :
    lookupFV n (evalModuleFrom env reg).bindings = none := by
  rw [evalModuleFrom_eq]
  by_cases h1 : n = "record" <;> by_cases h2 : n = "fitness_source" <;>
    simp [lookupFV, h1, h2]

/-- C2: the module defines exactly one Entity, bound to the name `record`,
whose entity name is "record", whose ordered join-key list is exactly
["record_id"], and which carries a description string. -/
theorem module_single_entity (env : Env) (reg : Registry) :
    entitiesOf (evalModuleFrom env reg).bindings = [("record", record)] ∧
    record.name = "record" ∧
    record.join_keys = ["record_id"] ∧
    record.description =
      "Each row is one record, which is a related cluster of fitness device features" :=
  ⟨rfl, rfl, rfl, rfl⟩

/-- C3: the module defines exactly one source descriptor, `fitness_source`,
with the stated path and timestamp field, and its optional created-timestamp
column is left unset. -/
theorem module_single_source (env : Env) (reg : Registry) :
    sourcesOf (evalModuleFrom env reg).bindings = [("fitness_source", fitness_source)] ∧
    fitness_source.path = "../../../data/full_data_cleaned.csv" ∧
    fitness_source.timestamp_field = "synthetic_event_timestamp" ∧
    fitness_source.created_timestamp_column = none :=
  ⟨rfl, rfl, rfl, rfl⟩

/-- C9: module evaluation is a pure, input-free construction — identical in
every environment (environment variables, clock, file contents), opening no
file (the reads log stays empty), and storing the CSV path as an opaque
string. -/
theorem module_eval_deterministic (env₁ env₂ : Env) (reg : Registry) :
    evalModuleFrom env₁ reg = evalModuleFrom env₂ reg ∧
    (evalModuleFrom env₁ reg).readsLog = [] ∧
    sourcesOf (evalModuleFrom env₁ reg).bindings = [("fitness_source", fitness_source)] ∧
    fitness_source.path = "../../../data/full_data_cleaned.csv" :=
  ⟨rfl, rfl, rfl, rfl⟩

/-- C10: evaluating the module performs no registration — the registry state
it finishes with is exactly the one it started from — and creates exactly the
two bindings `record` and `fitness_source`. -/
theorem module_eval_no_registration (env : Env) (reg : Registry) :
    (evalModuleFrom env reg).registry = reg ∧
    (evalModuleFrom env reg).bindings =
      [("record", PyValue.entity record),
       ("fitness_source", PyValue.source fitness_source)] :=
  ⟨rfl, rfl⟩

theorem strictBeats_iff {a b : SourceRow} :
    strictBeats a b = true ↔
      b.row_ts < a.row_ts ∨
      (a.row_ts = b.row_ts ∧ ∃ ca cb, a.created_ts = some ca ∧
        b.created_ts = some cb ∧ cb < ca) := by
  cases hca : a.created_ts <;> cases hcb : b.created_ts <;>
    simp [strictBeats, hca, hcb]

theorem ts_le_of_beats {a b : SourceRow} (h : strictBeats a b = true) :
    b.row_ts ≤ a.row_ts := by
  rcases strictBeats_iff.mp h with h1 | ⟨h1, _⟩ <;> omega

theorem ts_le_of_not_beats {a b : SourceRow} (h : strictBeats a b = false) :
    a.row_ts ≤ b.row_ts := by
  by_contra hlt
  exact absurd ((@strictBeats_iff a b).mpr (Or.inl (by omega))) (by simp [h])

theorem created_le_of_not_beats {a b : SourceRow} {ca cb : Int}
    (h : strictBeats a b = false) (hts : a.row_ts = b.row_ts)
    (ha : a.created_ts = some ca) (hb : b.created_ts = some cb) : ca ≤ cb := by
  by_contra hlt
  push_neg at hlt
  exact absurd ((@strictBeats_iff a b).mpr (Or.inr ⟨hts, ca, cb, ha, hb, hlt⟩))
    (by simp [h])

theorem beats_created {a b : SourceRow}
    (h : strictBeats a b = true) (hts : ¬ b.row_ts < a.row_ts) :
    a.row_ts = b.row_ts ∧ ∃ ca cb, a.created_ts = some ca ∧
      b.created_ts = some cb ∧ cb < ca := by
  rcases strictBeats_iff.mp h with h1 | h1
  · exact absurd h1 hts
  · exact h1

theorem uniformCreated_subset {l l' : List SourceRow}
    (hsub : ∀ r ∈ l', r ∈ l) (hu : uniformCreated l) : uniformCreated l' := by
  rcases hu with h | h
  · exact Or.inl fun r hr => h r (hsub r hr)
  · exact Or.inr fun r hr => h r (hsub r hr)

theorem createdLe_refl (a : SourceRow) : createdLe a a := by
  cases h : a.created_ts <;> simp [createdLe, h]

theorem mem_cons_middle {r a x : SourceRow} {xs : List SourceRow}
    (h : r ∈ a :: xs) : r ∈ a :: x :: xs := by
  rcases List.mem_cons.mp h with rfl | h'
  · exact List.mem_cons_self _ _
  · exact List.mem_cons_of_mem _ (List.mem_cons_of_mem _ h')

theorem selGo_mem (xs : List SourceRow) (a : SourceRow) : selGo a xs ∈ a :: xs := by
  induction xs generalizing a with
  | nil => simp [selGo]
  | cons x xs ih =>
    simp only [selGo]
    cases hsb : strictBeats a x with
    | false =>
      rw [if_pos (by simp [prefersNew, hsb])]
      exact List.mem_cons_of_mem _ (ih x)
    | true =>
      rw [if_neg (by simp [prefersNew, hsb])]
      exact mem_cons_middle (ih a)

theorem selGo_ts_max (xs : List SourceRow) (a : SourceRow) :
    ∀ b ∈ a :: xs, b.row_ts ≤ (selGo a xs).row_ts := by
  induction xs generalizing a with
  | nil =>
    intro b hb
    rw [List.mem_singleton] at hb
    subst hb
    exact le_refl _
  | cons x xs ih =>
    intro b hb
    simp only [selGo]
    cases hsb : strictBeats a x with
    | false =>
      rw [if_pos (by simp [prefersNew, hsb])]
      rcases List.mem_cons.mp hb with rfl | hb'
      · have h1 : b.row_ts ≤ x.row_ts := ts_le_of_not_beats hsb
        have h2 : x.row_ts ≤ (selGo x xs).row_ts :=
          ih x x (List.mem_cons_self _ _)
        omega
      · exact ih x b hb'
    | true =>
      rw [if_neg (by simp [prefersNew, hsb])]
      rcases List.mem_cons.mp hb with rfl | hb'
      · exact ih b b (List.mem_cons_self _ _)
      rcases List.mem_cons.mp hb' with rfl | hb''
      · have h1 : b.row_ts ≤ a.row_ts := ts_le_of_beats hsb
        have h2 : a.row_ts ≤ (selGo a xs).row_ts :=
          ih a a (List.mem_cons_self _ _)
        omega
      · exact ih a b (List.mem_cons_of_mem _ hb'')

theorem selGo_created_max (xs : List SourceRow) (a : SourceRow)
    (hu : uniformCreated (a :: xs)) :
    ∀ b ∈ a :: xs, b.row_ts = (selGo a xs).row_ts → createdLe b (selGo a xs) := by
  induction xs generalizing a with
  | nil =>
    intro b hb _
    rw [List.mem_singleton] at hb
    subst hb
    exact createdLe_refl b
  | cons x xs ih =>
    intro b hb hts
    simp only [selGo] at hts ⊢
    cases hsb : strictBeats a x with
    | false =>
      rw [if_pos (by simp [prefersNew, hsb])] at hts ⊢
      have hu' : uniformCreated (x :: xs) :=
        uniformCreated_subset (fun r hr => List.mem_cons_of_mem a hr) hu
      rcases List.mem_cons.mp hb with rfl | hb'
      · have h1 : b.row_ts ≤ x.row_ts := ts_le_of_not_beats hsb
        have h2 : x.row_ts ≤ (selGo x xs).row_ts :=
          selGo_ts_max xs x x (List.mem_cons_self _ _)
        have hbx : b.row_ts = x.row_ts := by omega
        have hxr : x.row_ts = (selGo x xs).row_ts := by omega
        cases hbc : b.created_ts with
        | none => simp [createdLe, hbc]
        | some ca =>
          rcases hu with hall | hnone
          · obtain ⟨cx, hxc⟩ := Option.ne_none_iff_exists'.mp
              (hall x (List.mem_cons_of_mem _ (List.mem_cons_self _ _)))
            obtain ⟨cr, hrc⟩ := Option.ne_none_iff_exists'.mp
              (hall (selGo x xs) (List.mem_cons_of_mem _ (selGo_mem xs x)))
            have hca_cx : ca ≤ cx := created_le_of_not_beats hsb hbx hbc hxc
            have hle : createdLe x (selGo x xs) :=
              ih x hu' x (List.mem_cons_self _ _) hxr
            rw [createdLe, hxc, hrc] at hle
            rw [createdLe, hbc, hrc]
            omega
          · exact absurd (hnone b (List.mem_cons_self _ _)) (by simp [hbc])
      · exact ih x hu' b hb' hts
    | true =>
      rw [if_neg (by simp [prefersNew, hsb])] at hts ⊢
      have hu' : uniformCreated (a :: xs) :=
        uniformCreated_subset (fun r hr => mem_cons_middle hr) hu
      rcases List.mem_cons.mp hb with rfl | hb'
      · exact ih b hu' b (List.mem_cons_self _ _) hts
      rcases List.mem_cons.mp hb' with rfl | hb''
      · have h1 : b.row_ts ≤ a.row_ts := ts_le_of_beats hsb
        have h2 : a.row_ts ≤ (selGo a xs).row_ts :=
          selGo_ts_max xs a a (List.mem_cons_self _ _)
        have hnlt : ¬ b.row_ts < a.row_ts := by omega
        obtain ⟨hab, ca, cb, hac, hbc, hlt⟩ := beats_created hsb hnlt
        rcases hu with hall | hnone
        · obtain ⟨cr, hrc⟩ := Option.ne_none_iff_exists'.mp
            (hall (selGo a xs) (mem_cons_middle (selGo_mem xs a)))
          have har : a.row_ts = (selGo a xs).row_ts := by omega
          have hle : createdLe a (selGo a xs) :=
            ih a hu' a (List.mem_cons_self _ _) har
          rw [createdLe, hac, hrc] at hle
          rw [createdLe, hbc, hrc]
          omega
        · exact absurd (hnone a (List.mem_cons_self _ _)) (by simp [hac])
      · exact ih a hu' b (List.mem_cons_of_mem _ hb'') hts

theorem selGo_split (xs : List SourceRow) (a : SourceRow) :
    ∃ l₁ l₂, a :: xs = l₁ ++ (selGo a xs) :: l₂ ∧
      ∀ b ∈ l₂, strictBeats (selGo a xs) b = true := by
  induction xs generalizing a with
  | nil => exact ⟨[], [], rfl, by simp⟩
  | cons x xs ih =>
    simp only [selGo]
    cases hsb : strictBeats a x with
    | false =>
      rw [if_pos (by simp [prefersNew, hsb])]
      obtain ⟨l₁, l₂, heq, hbeats⟩ := ih x
      exact ⟨a :: l₁, l₂, by rw [List.cons_append, ← heq], hbeats⟩
    | true =>
      rw [if_neg (by simp [prefersNew, hsb])]
      obtain ⟨l₁, l₂, heq, hbeats⟩ := ih a
      cases l₁ with
      | nil =>
        rw [List.nil_append] at heq
        have h1 : a = selGo a xs := (List.cons.injEq _ _ _ _ ▸ heq).1
        have h2 : xs = l₂ := (List.cons.injEq _ _ _ _ ▸ heq).2
        refine ⟨[], x :: xs, by rw [List.nil_append, ← h1], ?_⟩
        intro b hb
        rcases List.mem_cons.mp hb with rfl | hb'
        · rw [← h1]
          exact hsb
        · exact hbeats b (h2 ▸ hb')
      | cons c l₁' =>
        rw [List.cons_append] at heq
        have h1 : c = a := ((List.cons.injEq _ _ _ _ ▸ heq).1).symm
        have h2 : xs = l₁' ++ selGo a xs :: l₂ := (List.cons.injEq _ _ _ _ ▸ heq).2
        exact ⟨a :: x :: l₁', l₂, by rw [List.cons_append, List.cons_append, ← h2],
          hbeats⟩

theorem selectRow_mem {l : List SourceRow} {r : SourceRow}
    (h : selectRow l = some r) : r ∈ l := by
  cases l with
  | nil => simp [selectRow] at h
  | cons x xs =>
    simp only [selectRow, Option.some.injEq] at h
    exact h ▸ selGo_mem xs x

theorem mem_candidates {rows : List SourceRow} {key : String} {T : Int}
    {r : SourceRow} (h : r ∈ candidates rows key T) :
    r ∈ rows ∧ r.entity_key = key ∧ r.row_ts ≤ T := by
  obtain ⟨h1, h2⟩ := List.mem_filter.mp h
  simp only [Bool.and_eq_true, beq_iff_eq, decide_eq_true_eq] at h2
  exact ⟨h1, h2.1, h2.2⟩

/-- C4: no-leakage — whenever a historical query at event timestamp `T`
produces field values, those values are the values of a source row whose row
timestamp is ≤ `T`; a row with timestamp after `T` never contributes its
values to the result for `T`. -/
theorem no_future_leakage (rows : List SourceRow) (ttl : Int) (key : String)
    (T : Int) (vals : List (String × Int))
    (h : getHistorical (some rows) ttl key T = .ok (some vals)) :
    ∃ r, r ∈ rows ∧ r.entity_key = key ∧ r.row_ts ≤ T ∧ vals = r.values := by
  simp only [getHistorical] at h
  cases hsel : selectRow (candidates rows key T) with
  | none =>
    rw [hsel] at h
    simp at h
  | some r =>
    rw [hsel] at h
    dsimp only at h
    by_cases httl : T - r.row_ts ≤ ttl
    · rw [if_pos httl] at h
      simp only [Except.ok.injEq, Option.some.injEq] at h
      obtain ⟨hr, hk, hts⟩ := mem_candidates (selectRow_mem hsel)
      exact ⟨r, hr, hk, hts, h.symm⟩
    · rw [if_neg httl] at h
      simp at h

/-- C4 witness: a concrete query whose result values are traced back to a
row at or before the event timestamp. -/
theorem no_future_leakage_witness :
    ∃ r, r ∈ [SourceRow.mk "k" 5 none [("hr", 70)]] ∧ r.entity_key = "k" ∧
      r.row_ts ≤ 6 ∧ [("hr", 70)] = r.values :=
  no_future_leakage [SourceRow.mk "k" 5 none [("hr", 70)]] 10 "k" 6
    [("hr", 70)] (by rfl)

/-- C5: staleness — when the row selected for event timestamp `T` is staler
than the view's ttl, the query returns `.ok none` (the view's fields are
null), not an error: staleness is resolved by nulling, never surfaced as a
query failure. -/
theorem staleness_resolved_by_nulling (rows : List SourceRow) (ttl : Int)
    (key : String) (T : Int) (r : SourceRow)
    (hsel : selectRow (candidates rows key T) = some r)
    (hstale : ttl < T - r.row_ts) :
    getHistorical (some rows) ttl key T = .ok none := by
  simp only [getHistorical]
  rw [hsel]
  dsimp only
  rw [if_neg (by omega)]

/-- C5 witness: a concrete stale query (row 12 time units old, ttl 5)
returning null fields without failing. -/
theorem staleness_resolved_by_nulling_witness :
    getHistorical (some [SourceRow.mk "k" 0 none [("hr", 70)]]) 5 "k" 12 =
      .ok none :=
  staleness_resolved_by_nulling [SourceRow.mk "k" 0 none [("hr", 70)]] 5 "k" 12
    (SourceRow.mk "k" 0 none [("hr", 70)]) (by rfl) (by norm_num)

/-- C6: join selection and tie-break — the row the engine selects for
`(key, T)` is a candidate (matches the key, timestamp ≤ `T`), carries the
maximum candidate timestamp, no equal-timestamp candidate has a later
created timestamp, and every candidate after it in source order is strictly
beaten by it (so on full ties the row appearing later in source order is the
one selected). Created timestamps stem from one optional column, hence the
uniform-presence hypothesis. -/
theorem join_selects_latest (rows : List SourceRow) (key : String) (T : Int)
    (r : SourceRow) (hu : uniformCreated rows)
    (h : selectRow (candidates rows key T) = some r) :
    r ∈ candidates rows key T ∧
    (∀ b ∈ candidates rows key T, b.row_ts ≤ r.row_ts) ∧
    (∀ b ∈ candidates rows key T, b.row_ts = r.row_ts → createdLe b r) ∧
    ∃ l₁ l₂, candidates rows key T = l₁ ++ r :: l₂ ∧
      ∀ b ∈ l₂, strictBeats r b = true := by
  cases hc : candidates rows key T with
  | nil =>
    rw [hc] at h
    simp [selectRow] at h
  | cons x xs =>
    rw [hc] at h
    simp only [selectRow, Option.some.injEq] at h
    subst h
    have hu' : uniformCreated (x :: xs) := by
      refine uniformCreated_subset (fun r hr => ?_) hu
      exact (List.mem_filter.mp (hc ▸ hr)).1
    exact ⟨selGo_mem xs x, selGo_ts_max xs x, selGo_created_max xs x hu',
      selGo_split xs x⟩

/-- C6 witness: a concrete tie on timestamps where the later created
timestamp wins. -/
theorem join_selects_latest_witness :
    SourceRow.mk "k" 5 (some 3) [("a", 2)] ∈
      candidates
        [SourceRow.mk "k" 5 (some 1) [("a", 1)],
         SourceRow.mk "k" 5 (some 3) [("a", 2)],
         SourceRow.mk "k" 2 (some 9) [("a", 3)]] "k" 6 ∧
    (∀ b ∈ candidates
        [SourceRow.mk "k" 5 (some 1) [("a", 1)],
         SourceRow.mk "k" 5 (some 3) [("a", 2)],
         SourceRow.mk "k" 2 (some 9) [("a", 3)]] "k" 6,
      b.row_ts ≤ (SourceRow.mk "k" 5 (some 3) [("a", 2)]).row_ts) ∧
    (∀ b ∈ candidates
        [SourceRow.mk "k" 5 (some 1) [("a", 1)],
         SourceRow.mk "k" 5 (some 3) [("a", 2)],
         SourceRow.mk "k" 2 (some 9) [("a", 3)]] "k" 6,
      b.row_ts = (SourceRow.mk "k" 5 (some 3) [("a", 2)]).row_ts →
        createdLe b (SourceRow.mk "k" 5 (some 3) [("a", 2)])) ∧
    ∃ l₁ l₂, candidates
        [SourceRow.mk "k" 5 (some 1) [("a", 1)],
         SourceRow.mk "k" 5 (some 3) [("a", 2)],
         SourceRow.mk "k" 2 (some 9) [("a", 3)]] "k" 6 =
      l₁ ++ (SourceRow.mk "k" 5 (some 3) [("a", 2)]) :: l₂ ∧
      ∀ b ∈ l₂, strictBeats (SourceRow.mk "k" 5 (some 3) [("a", 2)]) b = true :=
  join_selects_latest
    [SourceRow.mk "k" 5 (some 1) [("a", 1)],
     SourceRow.mk "k" 5 (some 3) [("a", 2)],
     SourceRow.mk "k" 2 (some 9) [("a", 3)]] "k" 6
    (SourceRow.mk "k" 5 (some 3) [("a", 2)])
    (Or.inl (by decide)) (by rfl)

theorem lookupA_insert_preserve {β : Type} {l : List (String × β)} {n k : String}
    {v w : β} (hk : lookupA k l = none) (hn : lookupA n l = some v) :
    lookupA n ((k, w) :: l) = some v := by
  have hne : n ≠ k := by
    intro h
    subst h
    rw [hk] at hn
    exact Option.noConfusion hn
  simp only [lookupA, if_neg hne]
  exact hn

theorem registerEntity_ok_cases {reg reg' : Registry} {e : Entity}
    (h : registerEntity reg e = .ok reg') :
    (lookupA e.name reg.entities = some e ∧ reg' = reg) ∨
    (lookupA e.name reg.entities = none ∧
      reg' = { reg with entities := (e.name, e) :: reg.entities }) := by
  unfold registerEntity at h
  cases hl : lookupA e.name reg.entities with
  | some old =>
    rw [hl] at h
    dsimp only at h
    by_cases he : old = e
    · rw [if_pos he] at h
      simp only [Except.ok.injEq] at h
      exact Or.inl ⟨by rw [he], h.symm⟩
    · rw [if_neg he] at h
      exact Except.noConfusion h
  | none =>
    rw [hl] at h
    dsimp only at h
    simp only [Except.ok.injEq] at h
    exact Or.inr ⟨rfl, h.symm⟩

theorem registerSource_ok_cases {reg reg' : Registry} {n : String} {s : FileSource}
    (h : registerSource reg n s = .ok reg') :
    (lookupA n reg.sources = some s ∧ reg' = reg) ∨
    (lookupA n reg.sources = none ∧
      reg' = { reg with sources := (n, s) :: reg.sources }) := by
  unfold registerSource at h
  cases hl : lookupA n reg.sources with
  | some old =>
    rw [hl] at h
    dsimp only at h
    by_cases he : old = s
    · rw [if_pos he] at h
      simp only [Except.ok.injEq] at h
      exact Or.inl ⟨by rw [he], h.symm⟩
    · rw [if_neg he] at h
      exact Except.noConfusion h
  | none =>
    rw [hl] at h
    dsimp only at h
    simp only [Except.ok.injEq] at h
    exact Or.inr ⟨rfl, h.symm⟩

theorem registerView_ok_cases {reg reg' : Registry} {v : FeatureViewDef}
    (h : registerView reg v = .ok reg') :
    (lookupA v.name reg.views = some v ∧ reg' = reg) ∨
    (lookupA v.name reg.views = none ∧
      reg' = { reg with views := (v.name, v) :: reg.views }) := by
  unfold registerView at h
  cases hl : lookupA v.name reg.views with
  | some old =>
    rw [hl] at h
    dsimp only at h
    by_cases he : old = v
    · rw [if_pos he] at h
      simp only [Except.ok.injEq] at h
      exact Or.inl ⟨by rw [he], h.symm⟩
    · rw [if_neg he] at h
      exact Except.noConfusion h
  | none =>
    rw [hl] at h
    dsimp only at h
    by_cases h1 : (lookupA v.entity reg.entities).isNone
    · rw [if_pos h1] at h
      exact Except.noConfusion h
    rw [if_neg h1] at h
    by_cases h2 : (lookupA v.source reg.sources).isNone
    · rw [if_pos h2] at h
      exact Except.noConfusion h
    rw [if_neg h2] at h
    by_cases h3 : (v.fields.map Prod.fst).Nodup
    · rw [if_pos h3] at h
      simp only [Except.ok.injEq] at h
      exact Or.inr ⟨rfl, h.symm⟩
    · rw [if_neg h3] at h
      exact Except.noConfusion h

theorem registerItem_preserves {reg reg' : Registry} {it it₀ : RegItem}
    (h : registerItem reg it = .ok reg')
    (hreg : itemRegistered reg it₀) : itemRegistered reg' it₀ := by
  cases it with
  | entity e =>
    rcases registerEntity_ok_cases h with ⟨_, rfl⟩ | ⟨hnone, rfl⟩
    · exact hreg
    · cases it₀ with
      | entity e₀ =>
        simp only [itemRegistered] at hreg ⊢
        exact lookupA_insert_preserve hnone hreg
      | source n₀ s₀ => exact hreg
      | view v₀ => exact hreg
  | source n s =>
    rcases registerSource_ok_cases h with ⟨_, rfl⟩ | ⟨hnone, rfl⟩
    · exact hreg
    · cases it₀ with
      | entity e₀ => exact hreg
      | source n₀ s₀ =>
        simp only [itemRegistered] at hreg ⊢
        exact lookupA_insert_preserve hnone hreg
      | view v₀ => exact hreg
  | view v =>
    rcases registerView_ok_cases h with ⟨_, rfl⟩ | ⟨hnone, rfl⟩
    · exact hreg
    · cases it₀ with
      | entity e₀ => exact hreg
      | source n₀ s₀ => exact hreg
      | view v₀ =>
        simp only [itemRegistered] at hreg ⊢
        exact lookupA_insert_preserve hnone hreg

theorem registerItem_registered {reg reg' : Registry} {it : RegItem}
    (h : registerItem reg it = .ok reg') : itemRegistered reg' it := by
  cases it with
  | entity e =>
    rcases registerEntity_ok_cases h with ⟨hsome, rfl⟩ | ⟨_, rfl⟩
    · exact hsome
    · simp [itemRegistered, lookupA]
  | source n s =>
    rcases registerSource_ok_cases h with ⟨hsome, rfl⟩ | ⟨_, rfl⟩
    · exact hsome
    · simp [itemRegistered, lookupA]
  | view v =>
    rcases registerView_ok_cases h with ⟨hsome, rfl⟩ | ⟨_, rfl⟩
    · exact hsome
    · simp [itemRegistered, lookupA]

theorem registerItem_noop {reg : Registry} {it : RegItem}
    (hreg : itemRegistered reg it) : registerItem reg it = .ok reg := by
  cases it with
  | entity e =>
    simp only [itemRegistered] at hreg
    simp [registerItem, registerEntity, hreg]
  | source n s =>
    simp only [itemRegistered] at hreg
    simp [registerItem, registerSource, hreg]
  | view v =>
    simp only [itemRegistered] at hreg
    simp [registerItem, registerView, hreg]

theorem applyBatch_preserves {reg reg' : Registry} {b : List RegItem}
    {it₀ : RegItem} (h : applyBatch reg b = .ok reg')
    (hreg : itemRegistered reg it₀) : itemRegistered reg' it₀ := by
  induction b generalizing reg with
  | nil =>
    simp only [applyBatch, Except.ok.injEq] at h
    exact h ▸ hreg
  | cons it rest ih =>
    simp only [applyBatch] at h
    cases hstep : registerItem reg it with
    | error e =>
      rw [hstep] at h
      exact Except.noConfusion h
    | ok reg₁ =>
      rw [hstep] at h
      dsimp only at h
      exact ih h (registerItem_preserves hstep hreg)

theorem applyBatch_registered {reg reg' : Registry} {b : List RegItem}
    (h : applyBatch reg b = .ok reg') : ∀ it ∈ b, itemRegistered reg' it := by
  induction b generalizing reg with
  | nil =>
    intro it hit
    exact absurd hit (List.not_mem_nil it)
  | cons it rest ih =>
    intro it₀ hit₀
    simp only [applyBatch] at h
    cases hstep : registerItem reg it with
    | error e =>
      rw [hstep] at h
      exact Except.noConfusion h
    | ok reg₁ =>
      rw [hstep] at h
      dsimp only at h
      rcases List.mem_cons.mp hit₀ with rfl | hmem
      · exact applyBatch_preserves h (registerItem_registered hstep)
      · exact ih h it₀ hmem

theorem applyBatch_noop {reg : Registry} {b : List RegItem}
    (hreg : ∀ it ∈ b, itemRegistered reg it) : applyBatch reg b = .ok reg := by
  induction b with
  | nil => rfl
  | cons it rest ih =>
    simp only [applyBatch]
    rw [registerItem_noop (hreg it (List.mem_cons_self _ _))]
    dsimp only
    exact ih fun it₀ hit₀ => hreg it₀ (List.mem_cons_of_mem _ hit₀)

theorem applyBatch_error_split {reg : Registry} {b : List RegItem} {e : RegError}
    (h : applyBatch reg b = .error e) :
    ∃ pre it post regPre, b = pre ++ it :: post ∧
      applyBatch reg pre = .ok regPre ∧ registerItem regPre it = .error e := by
  induction b generalizing reg with
  | nil =>
    simp only [applyBatch] at h
    exact Except.noConfusion h
  | cons it rest ih =>
    simp only [applyBatch] at h
    cases hstep : registerItem reg it with
    | error e' =>
      rw [hstep] at h
      dsimp only at h
      simp only [Except.error.injEq] at h
      exact ⟨[], it, rest, reg, rfl, rfl, h ▸ hstep⟩
    | ok reg₁ =>
      rw [hstep] at h
      dsimp only at h
      obtain ⟨pre, it', post, regPre, heq, hok, herr⟩ := ih h
      refine ⟨it :: pre, it', post, regPre, by rw [heq, List.cons_append], ?_, herr⟩
      simp only [applyBatch]
      rw [hstep]
      dsimp only
      exact hok

/-- C7: registration atomicity — a batch submitted to the registration
entrypoint either validates and commits in full (every item of the batch is
then registered with its content), or the call fails with the first
validation error (every item before the failing one validated) and the
committed registry state is exactly the state before the call. -/
theorem registration_atomic (reg : Registry) (b : List RegItem) :
    (∃ reg', applyBatch reg b = .ok reg' ∧ applyAll reg b = (reg', none) ∧
      ∀ it ∈ b, itemRegistered reg' it) ∨
    (∃ e, applyBatch reg b = .error e ∧ applyAll reg b = (reg, some e) ∧
      ∃ pre it post regPre, b = pre ++ it :: post ∧
        applyBatch reg pre = .ok regPre ∧ registerItem regPre it = .error e) := by
  cases hb : applyBatch reg b with
  | ok reg' =>
    exact Or.inl ⟨reg', rfl, by simp [applyAll, hb], applyBatch_registered hb⟩
  | error e =>
    exact Or.inr ⟨e, rfl, by simp [applyAll, hb], applyBatch_error_split hb⟩

/-- C8: registration idempotence — re-registering a successfully committed
batch with byte-identical content is a no-op on the registry, while any item
whose name collides with an existing entry under conflicting content fails
with a duplicate-name error. -/
theorem registration_idempotent (reg reg' : Registry) (b : List RegItem)
    (h : applyBatch reg b = .ok reg') :
    applyBatch reg' b = .ok reg' ∧
    ∀ it, itemConflicts reg' it →
      ∃ n, registerItem reg' it = .error (.duplicateName n) := by
  constructor
  · exact applyBatch_noop (applyBatch_registered h)
  · intro it hconf
    cases it with
    | entity e =>
      simp only [itemConflicts] at hconf
      obtain ⟨old, hold, hne⟩ := hconf
      refine ⟨e.name, ?_⟩
      simp only [registerItem, registerEntity, hold]
      rw [if_neg hne]
    | source n s =>
      simp only [itemConflicts] at hconf
      obtain ⟨old, hold, hne⟩ := hconf
      refine ⟨n, ?_⟩
      simp only [registerItem, registerSource, hold]
      rw [if_neg hne]
    | view v =>
      simp only [itemConflicts] at hconf
      obtain ⟨old, hold, hne⟩ := hconf
      refine ⟨v.name, ?_⟩
      simp only [registerItem, registerView, hold]
      rw [if_neg hne]

/-- C8 witness: registering the module's entity and source, then the same
batch again, leaves the registry unchanged; conflicting collisions fail. -/
theorem registration_idempotent_witness :
    applyBatch
      (Registry.mk [("record", record)] [("fitness_source", fitness_source)] [])
      [RegItem.entity record, RegItem.source "fitness_source" fitness_source] =
      .ok (Registry.mk [("record", record)] [("fitness_source", fitness_source)] []) ∧
    ∀ it, itemConflicts
        (Registry.mk [("record", record)] [("fitness_source", fitness_source)] []) it →
      ∃ n, registerItem
          (Registry.mk [("record", record)] [("fitness_source", fitness_source)] []) it =
        .error (.duplicateName n) :=
  registration_idempotent emptyRegistry
    (Registry.mk [("record", record)] [("fitness_source", fitness_source)] [])
    [RegItem.entity record, RegItem.source "fitness_source" fitness_source]
    (by rfl)

end FeatureRepo
